import Mathlib

/-!
Verification of the timestamp-synthesis core of the photo_reports repository
(`timestamp_works.py`), shallowly embedded in Lean.

Modelling conventions:
* seconds-of-day values and calendar dates are `Int` (a date is a day count);
* Python floats are modelled as `ℚ`; `int(x)` truncation toward zero is `truncInt`;
* `random.randint(-1800, 1800)` outcomes are passed as explicit jitter arguments;
* `calculate_visual_difference` outcomes inside the allocators are abstracted as a
  metric argument `vd : α → α → ℚ` applied to the same index pairs as the source;
* Python's `sorted` on integers is `pySorted` (insertion sort: sortedness plus
  permutation characterises the result on integers);
* strings are compared byte-for-byte; `\d` of the source regex is modelled as
  ASCII `Char.isDigit`.
-/

namespace PhotoReports

/-- Python `int()` applied to a float: truncation toward zero. -/
def truncInt (q : ℚ) : Int := if 0 ≤ q then ⌊q⌋ else ⌈q⌉

/-- Python `sorted` on a list of integers. -/
def pySorted (l : List Int) : List Int := l.insertionSort (· ≤ ·)

/-- The comparison loop `for i in range(len(xs) - 1): diffs.append(vd(xs[i], xs[i+1]))`:
visual differences of consecutive pairs. -/
def consecDiffs (vd : α → α → ℚ) : List α → List ℚ
  | a :: b :: rest => vd a b :: consecDiffs vd (b :: rest)
  | _ => []

/-- The accumulation loop `for gap in intervals: current += gap; out.append(int(current))`. -/
def walkTimestamps : ℚ → List ℚ → List Int
  | _, [] => []
  | cur, g :: gs => truncInt (cur + g) :: walkTimestamps (cur + g) gs

/-- Interval computation of `generate_timestamps` (timestamp_works.py lines 132-140):
diffs over consecutive pairs of `image_files[1:]`, `total_diff = sum(diffs) or 1`,
then the (dead) equal-width branch guarded by `total_diff == 0`, else proportional gaps. -/
def gt_intervals (duration : Int) (image_files : List α) (vd : α → α → ℚ) : List ℚ :=
  let num_images := image_files.length
  let diffs := consecDiffs vd (image_files.drop 1)
  let total_diff : ℚ := if diffs.sum = 0 then 1 else diffs.sum
  if total_diff = 0 then
    List.replicate (num_images - 2) ((duration : ℚ) / ((num_images : ℚ) - 2))
  else
    diffs.map (fun d => d / total_diff * (duration : ℚ))

/-- `generate_timestamps` (timestamp_works.py lines 117-146), with the two
`random.randint(-1800, 1800)` draws passed as `j1`, `j2`. -/
def generate_timestamps (start_time duration_before duration : Int)
    (image_files : List α) (vd : α → α → ℚ) (j1 j2 : Int) : List Int :=
  let t1 := start_time + j1
  let t2 := t1 + duration_before + j2
  if image_files.length = 2 then
    pySorted [t1, t2]
  else
    pySorted ([t1, t2] ++ walkTimestamps (t2 : ℚ) (gt_intervals duration image_files vd))

/-- `generate_duration_timestamps` (timestamp_works.py lines 94-114). -/
def generate_duration_timestamps (t_before duration : Int)
    (duration_images : List α) (vd : α → α → ℚ) : List Int :=
  let t_end := t_before + duration
  if duration_images.length = 1 then
    [t_end]
  else
    let diffs := consecDiffs vd duration_images
    let total_diff : ℚ := if diffs.sum ≠ 0 then diffs.sum else 1
    let intervals := diffs.map (fun d => d / total_diff * (duration : ℚ))
    walkTimestamps (t_before : ℚ) intervals

/-- `adjust_timestamp` (timestamp_works.py lines 302-307): roll seconds ≥ 86400
into following days.  The same loop is inlined in `process_folder` lines 364-370. -/
def adjust_timestamp (t : Int) (base_date : Int) : Int × Int :=
  if h : 86400 ≤ t then adjust_timestamp (t - 86400) (base_date + 1) else (base_date, t)
termination_by t.toNat
decreasing_by omega

/-- The raw (pre-normalization) timestamp sequence emitted by `process_incident`
(timestamp_works.py lines 294-300, stamping order of lines 309-317): start anchor,
before-work anchor, then the duration timestamps, padded by `t_before + duration`
when `generate_duration_timestamps` came up one short. -/
def incident_raw_timestamps (start_seconds before_seconds duration_seconds : Int)
    (duration_images : List α) (vd : α → α → ℚ) (j1 j2 : Int) : List Int :=
  let t_start := start_seconds + j1
  let t_before := t_start + before_seconds + j2
  let dts := generate_duration_timestamps t_before duration_seconds duration_images vd
  let dts :=
    if dts.length < duration_images.length then dts ++ [t_before + duration_seconds] else dts
  t_start :: t_before :: dts

/-- The normalized (date, seconds) pairs handed to the stamping step by
`process_incident`: every raw timestamp goes through `adjust_timestamp` against the
incident date extracted from the first sub-folder's name. -/
def incident_stamped (start_seconds before_seconds duration_seconds : Int)
    (duration_images : List α) (vd : α → α → ℚ) (j1 j2 : Int)
    (incident_date : Int) : List (Int × Int) :=
  (incident_raw_timestamps start_seconds before_seconds duration_seconds
      duration_images vd j1 j2).map (fun t => adjust_timestamp t incident_date)

/-- A decoded PIL image after `convert("RGB")`: dimensions plus the row-major RGB
pixel data returned by `getdata()`. -/
structure PImage where
  width : Nat
  height : Nat
  pixels : List (Nat × Nat × Nat)

/-- One pixel of `ImageChops.difference(img1, img2)` summed over its channels:
the per-channel absolute difference. -/
def pxDiff (p q : Nat × Nat × Nat) : Nat :=
  (max p.1 q.1 - min p.1 q.1) + (max p.2.1 q.2.1 - min p.2.1 q.2.1) +
    (max p.2.2 q.2.2 - min p.2.2 q.2.2)

/-- `sum(sum(pixel) for pixel in diff.getdata())`. -/
def diffSum (ps qs : List (Nat × Nat × Nat)) : Nat := (List.zipWith pxDiff ps qs).sum

/-- `calculate_visual_difference` (timestamp_works.py lines 77-91).  `none` stands for a
failed decode; a size mismatch makes `ImageChops.difference` raise.  Both exceptions are
caught and mapped to 0.0; a zero-pixel image raises `ZeroDivisionError`, also caught and
mapped to 0.0, which agrees with Lean's `q / 0 = 0` convention used here. -/
def calculate_visual_difference : Option PImage → Option PImage → ℚ
  | some i1, some i2 =>
    if i1.width = i2.width ∧ i1.height = i2.height then
      ((diffSum i1.pixels i2.pixels : Nat) : ℚ) / ((i1.width * i1.height * 255 * 3 : Nat) : ℚ)
    else 0
  | _, _ => 0

/-- Well-formedness of a decoded RGB image: `getdata()` yields `width * height` pixels
whose channels are bytes. -/
def PImage.wf (img : PImage) : Prop :=
  img.pixels.length = img.width * img.height ∧
    ∀ p ∈ img.pixels, p.1 ≤ 255 ∧ p.2.1 ≤ 255 ∧ p.2.2 ≤ 255

instance (img : PImage) : Decidable img.wf := by
  unfold PImage.wf; infer_instance

/-- `os.path.basename`: the part of the path after the last `/`. -/
def pyBasename (path : String) : String :=
  ⟨(path.data.reverse.takeWhile (fun c => !(c == '/'))).reverse⟩

/-- The prefix key of `group_by_prefix` (timestamp_works.py lines 216-221): the leading
run matched by `^([\d_]+)` with trailing underscores stripped, or the whole filename when
the regex does not match. -/
def prefixKey (filename : String) : String :=
  let run := filename.data.takeWhile (fun c => c.isDigit || c == '_')
  if run.isEmpty then filename else ⟨(run.reverse.dropWhile (· == '_')).reverse⟩

/-- Key under which a candidate path is grouped: the prefix key of its basename. -/
def groupKey (path : String) : String := prefixKey (pyBasename path)

/-- One iteration of the `group_by_prefix` loop on the insertion-ordered dict `groups`
(timestamp_works.py lines 222-226): replace the entry only when the new basename is
strictly longer, insert at the end when the key is new. -/
def updateGroup : List (String × String) → String → String → List (String × String)
  | [], key, path => [(key, path)]
  | (k, p) :: rest, key, path =>
    if k = key then
      (if (pyBasename p).length < (pyBasename path).length then (k, path) else (k, p)) :: rest
    else
      (k, p) :: updateGroup rest key path

/-- The `groups` dict after the whole `group_by_prefix` loop. -/
def foldGroups (candidates : List String) : List (String × String) :=
  candidates.foldl (fun groups path => updateGroup groups (groupKey path) path) []

/-- `group_by_prefix` (timestamp_works.py lines 208-227): `list(groups.values())` in
insertion order. -/
def group_by_prefix (candidates : List String) : List String :=
  (foldGroups candidates).map Prod.snd

theorem truncInt_intCast (n : Int) : truncInt (n : ℚ) = n := by
  unfold truncInt
  split
  · exact Int.floor_intCast n
  · exact Int.ceil_intCast n

theorem truncInt_mono {q q' : ℚ} (h : q ≤ q') : truncInt q ≤ truncInt q' := by
  unfold truncInt
  by_cases h1 : 0 ≤ q
  · rw [if_pos h1, if_pos (le_trans h1 h)]
    exact Int.floor_le_floor h
  · rw [if_neg h1]
    by_cases h2 : 0 ≤ q'
    · rw [if_pos h2]
      calc ⌈q⌉ ≤ 0 := Int.ceil_le.mpr (by push_cast; linarith)
        _ ≤ ⌊q'⌋ := Int.le_floor.mpr (by push_cast; linarith)
    · rw [if_neg h2]
      exact Int.ceil_le_ceil h

theorem walkTimestamps_length (c : ℚ) (gs : List ℚ) :
    (walkTimestamps c gs).length = gs.length := by
  induction gs generalizing c with
  | nil => rfl
  | cons g gs ih => simp [walkTimestamps, ih]

theorem walkTimestamps_mem_ge {gs : List ℚ} (hgs : ∀ g ∈ gs, 0 ≤ g) (c : ℚ) :
    ∀ x ∈ walkTimestamps c gs, truncInt c ≤ x := by
  induction gs generalizing c with
  | nil => intro x hx; cases hx
  | cons g gs ih =>
    intro x hx
    rw [walkTimestamps, List.mem_cons] at hx
    rcases hx with rfl | hx
    · exact truncInt_mono (by have := hgs g (by simp); linarith)
    · calc truncInt c ≤ truncInt (c + g) :=
            truncInt_mono (by have := hgs g (by simp); linarith)
        _ ≤ x := ih (fun g' hg' => hgs g' (by simp [hg'])) (c + g) x hx

theorem walkTimestamps_chain {gs : List ℚ} (hgs : ∀ g ∈ gs, 0 ≤ g) (c : ℚ) :
    List.Chain' (· ≤ ·) (walkTimestamps c gs) := by
  induction gs generalizing c with
  | nil => simp [walkTimestamps]
  | cons g gs ih =>
    rw [walkTimestamps, List.chain'_cons']
    refine ⟨fun y hy => ?_, ih (fun g' hg' => hgs g' (by simp [hg'])) (c + g)⟩
    exact walkTimestamps_mem_ge (fun g' hg' => hgs g' (by simp [hg'])) (c + g) y
      (List.mem_of_mem_head? hy)

theorem walkTimestamps_mem_le {gs : List ℚ} (hgs : ∀ g ∈ gs, 0 ≤ g) (c : ℚ) :
    ∀ x ∈ walkTimestamps c gs, x ≤ truncInt (c + gs.sum) := by
  induction gs generalizing c with
  | nil => intro x hx; cases hx
  | cons g gs ih =>
    intro x hx
    rw [walkTimestamps, List.mem_cons] at hx
    rcases hx with rfl | hx
    · refine truncInt_mono ?_
      have : 0 ≤ gs.sum := List.sum_nonneg (fun g' hg' => hgs g' (by simp [hg']))
      rw [List.sum_cons]
      linarith
    · have h1 := ih (fun g' hg' => hgs g' (by simp [hg'])) (c + g) x hx
      calc x ≤ truncInt (c + g + gs.sum) := h1
        _ = truncInt (c + (g :: gs).sum) := by rw [List.sum_cons]; ring_nf

theorem consecDiffs_length (vd : α → α → ℚ) :
    ∀ l : List α, (consecDiffs vd l).length = l.length - 1
  | [] => rfl
  | [_] => rfl
  | _ :: b :: rest => by
    rw [consecDiffs, List.length_cons, consecDiffs_length vd (b :: rest)]
    simp

theorem consecDiffs_nonneg {vd : α → α → ℚ} (hvd : ∀ a b, 0 ≤ vd a b) :
    ∀ l : List α, ∀ d ∈ consecDiffs vd l, 0 ≤ d
  | [], _, hd => by cases hd
  | [_], _, hd => by cases hd
  | a :: b :: rest, d, hd => by
    rw [consecDiffs, List.mem_cons] at hd
    rcases hd with rfl | hd
    · exact hvd a b
    · exact consecDiffs_nonneg hvd (b :: rest) d hd

theorem sum_eq_zero_of_nonneg {l : List ℚ} (h : ∀ x ∈ l, 0 ≤ x) (hs : l.sum = 0) :
    ∀ x ∈ l, x = 0 := by
  induction l with
  | nil => intro x hx; cases hx
  | cons a l ih =>
    have ha : 0 ≤ a := h a (by simp)
    have hl : 0 ≤ l.sum := List.sum_nonneg (fun x hx => h x (by simp [hx]))
    rw [List.sum_cons] at hs
    intro x hx
    rcases List.mem_cons.mp hx with rfl | hx
    · linarith
    · exact ih (fun y hy => h y (by simp [hy])) (by linarith) x hx

theorem sum_map_div_mul (l : List ℚ) (T dur : ℚ) :
    (l.map (fun d => d / T * dur)).sum = l.sum / T * dur := by
  induction l with
  | nil => simp
  | cons a l ih => simp [ih, add_div, add_mul]

theorem propIntervals_nonneg {diffs : List ℚ} (hd : ∀ d ∈ diffs, 0 ≤ d) (dq T : ℚ)
    (hdq : 0 ≤ dq) (hT : 0 < T) : ∀ g ∈ diffs.map (fun d => d / T * dq), 0 ≤ g := by
  intro g hg
  rcases List.mem_map.mp hg with ⟨d, hdmem, rfl⟩
  have := hd d hdmem
  positivity

theorem propIntervals_sum_le {diffs : List ℚ} {dq T : ℚ}
    (hdq : 0 ≤ dq) (hT : 0 < T) (hcase : T = diffs.sum ∨ diffs.sum = 0) :
    (diffs.map (fun d => d / T * dq)).sum ≤ dq := by
  rw [sum_map_div_mul]
  rcases hcase with h | h
  · rw [← h, div_self (ne_of_gt hT), one_mul]
  · rw [h, zero_div, zero_mul]
    exact hdq

theorem gt_intervals_eq (duration : Int) (image_files : List α) (vd : α → α → ℚ) :
    gt_intervals duration image_files vd =
      (consecDiffs vd (image_files.drop 1)).map
        (fun d => d / (if (consecDiffs vd (image_files.drop 1)).sum = 0 then 1
            else (consecDiffs vd (image_files.drop 1)).sum) * (duration : ℚ)) := by
  simp only [gt_intervals]
  have hT : (if (consecDiffs vd (image_files.drop 1)).sum = 0 then (1:ℚ)
      else (consecDiffs vd (image_files.drop 1)).sum) ≠ 0 := by
    by_cases hs : (consecDiffs vd (image_files.drop 1)).sum = 0
    · rw [if_pos hs]; norm_num
    · rw [if_neg hs]; exact hs
  rw [if_neg hT]

theorem gt_intervals_nonneg {vd : α → α → ℚ} (hvd : ∀ a b, 0 ≤ vd a b)
    {duration : Int} (hdur : 0 ≤ duration) (image_files : List α) :
    ∀ g ∈ gt_intervals duration image_files vd, 0 ≤ g := by
  rw [gt_intervals_eq]
  set diffs := consecDiffs vd (image_files.drop 1) with hdiffs
  have hd : ∀ d ∈ diffs, 0 ≤ d := fun d hd => consecDiffs_nonneg hvd _ d hd
  refine propIntervals_nonneg hd _ _ (by exact_mod_cast hdur) ?_
  by_cases hs : diffs.sum = 0
  · rw [if_pos hs]; norm_num
  · rw [if_neg hs]
    exact lt_of_le_of_ne (List.sum_nonneg hd) (Ne.symm hs)

theorem gt_intervals_sum_le {vd : α → α → ℚ} (hvd : ∀ a b, 0 ≤ vd a b)
    {duration : Int} (hdur : 0 ≤ duration) (image_files : List α) :
    (gt_intervals duration image_files vd).sum ≤ (duration : ℚ) := by
  rw [gt_intervals_eq]
  set diffs := consecDiffs vd (image_files.drop 1) with hdiffs
  have hd : ∀ d ∈ diffs, 0 ≤ d := fun d hd => consecDiffs_nonneg hvd _ d hd
  by_cases hs : diffs.sum = 0
  · rw [if_pos hs]
    exact propIntervals_sum_le (by exact_mod_cast hdur) (by norm_num) (Or.inr hs)
  · rw [if_neg hs]
    exact propIntervals_sum_le (by exact_mod_cast hdur)
      (lt_of_le_of_ne (List.sum_nonneg hd) (Ne.symm hs)) (Or.inl rfl)

theorem gt_intervals_length (duration : Int) (image_files : List α) (vd : α → α → ℚ) :
    (gt_intervals duration image_files vd).length = image_files.length - 2 := by
  rw [gt_intervals_eq, List.length_map, consecDiffs_length, List.length_drop]
  omega

theorem gdt_length (t_before duration : Int) (duration_images : List α) (vd : α → α → ℚ) :
    (generate_duration_timestamps t_before duration duration_images vd).length =
      if duration_images.length = 1 then 1 else duration_images.length - 1 := by
  unfold generate_duration_timestamps
  by_cases h : duration_images.length = 1
  · simp [h]
  · simp [h, walkTimestamps_length, consecDiffs_length]

theorem gdt_mem_bounds {vd : α → α → ℚ} (hvd : ∀ a b, 0 ≤ vd a b)
    (t_before : Int) {duration : Int} (hdur : 0 ≤ duration) (duration_images : List α) :
    ∀ x ∈ generate_duration_timestamps t_before duration duration_images vd,
      t_before ≤ x ∧ x ≤ t_before + duration := by
  unfold generate_duration_timestamps
  by_cases h : duration_images.length = 1
  · rw [if_pos h]
    intro x hx
    rcases List.mem_singleton.mp hx with rfl
    omega
  · rw [if_neg h]
    intro x hx
    set diffs := consecDiffs vd duration_images with hdiffs
    have hd : ∀ d ∈ diffs, 0 ≤ d := fun d hd => consecDiffs_nonneg hvd _ d hd
    have hT : (0:ℚ) < (if diffs.sum ≠ 0 then diffs.sum else 1) := by
      by_cases hs : diffs.sum = 0
      · rw [if_neg (by simpa using hs)]; norm_num
      · rw [if_pos hs]
        exact lt_of_le_of_ne (List.sum_nonneg hd) (Ne.symm hs)
    have hnn := propIntervals_nonneg hd ((duration : Int) : ℚ) _ (by exact_mod_cast hdur) hT
    constructor
    · have := walkTimestamps_mem_ge hnn ((t_before : Int) : ℚ) x hx
      rwa [truncInt_intCast] at this
    · have h1 := walkTimestamps_mem_le hnn ((t_before : Int) : ℚ) x hx
      have h2 : (diffs.map (fun d => d / (if diffs.sum ≠ 0 then diffs.sum else 1) *
          (duration : ℚ))).sum ≤ (duration : ℚ) := by
        refine propIntervals_sum_le (by exact_mod_cast hdur) hT ?_
        by_cases hs : diffs.sum = 0
        · exact Or.inr hs
        · exact Or.inl (if_pos hs)
      calc x ≤ truncInt ((t_before : ℚ) +
            (diffs.map (fun d => d / (if diffs.sum ≠ 0 then diffs.sum else 1) *
              (duration : ℚ))).sum) := h1
        _ ≤ truncInt ((t_before : ℚ) + (duration : ℚ)) := truncInt_mono (by linarith)
        _ = t_before + duration := by
            rw [← Int.cast_add, truncInt_intCast]

theorem gdt_chain {vd : α → α → ℚ} (hvd : ∀ a b, 0 ≤ vd a b)
    (t_before : Int) {duration : Int} (hdur : 0 ≤ duration) (duration_images : List α) :
    List.Chain' (· ≤ ·)
      (generate_duration_timestamps t_before duration duration_images vd) := by
  unfold generate_duration_timestamps
  by_cases h : duration_images.length = 1
  · simp [h]
  · rw [if_neg h]
    set diffs := consecDiffs vd duration_images with hdiffs
    have hd : ∀ d ∈ diffs, 0 ≤ d := fun d hd => consecDiffs_nonneg hvd _ d hd
    have hT : (0:ℚ) < (if diffs.sum ≠ 0 then diffs.sum else 1) := by
      by_cases hs : diffs.sum = 0
      · rw [if_neg (by simpa using hs)]; norm_num
      · rw [if_pos hs]
        exact lt_of_le_of_ne (List.sum_nonneg hd) (Ne.symm hs)
    exact walkTimestamps_chain
      (propIntervals_nonneg hd _ _ (by exact_mod_cast hdur) hT) _

theorem adjust_timestamp_of_lt {t : Int} (D : Int) (h : t < 86400) :
    adjust_timestamp t D = (D, t) := by
  rw [adjust_timestamp]
  rw [dif_neg (by omega)]

theorem adjust_timestamp_bounds (t D : Int) (ht : 0 ≤ t) :
    0 ≤ (adjust_timestamp t D).2 ∧ (adjust_timestamp t D).2 < 86400 := by
  induction t, D using adjust_timestamp.induct with
  | case1 t D h ih =>
    rw [adjust_timestamp, dif_pos h]
    exact ih (by omega)
  | case2 t D h =>
    rw [adjust_timestamp, dif_neg h]
    exact ⟨ht, by simpa using h⟩

theorem pySorted_chain (l : List Int) : List.Chain' (· ≤ ·) (pySorted l) := by
  rw [List.chain'_iff_pairwise]
  exact List.sorted_insertionSort _ l

theorem pySorted_eq_of_sorted {l : List Int} (h : List.Sorted (· ≤ ·) l) :
    pySorted l = l :=
  h.insertionSort_eq

theorem pxDiff_le {p q : Nat × Nat × Nat}
    (hp : p.1 ≤ 255 ∧ p.2.1 ≤ 255 ∧ p.2.2 ≤ 255)
    (hq : q.1 ≤ 255 ∧ q.2.1 ≤ 255 ∧ q.2.2 ≤ 255) : pxDiff p q ≤ 765 := by
  unfold pxDiff
  have h1 : max p.1 q.1 ≤ 255 := max_le hp.1 hq.1
  have h2 : max p.2.1 q.2.1 ≤ 255 := max_le hp.2.1 hq.2.1
  have h3 : max p.2.2 q.2.2 ≤ 255 := max_le hp.2.2 hq.2.2
  omega

theorem diffSum_le {ps qs : List (Nat × Nat × Nat)}
    (hp : ∀ p ∈ ps, p.1 ≤ 255 ∧ p.2.1 ≤ 255 ∧ p.2.2 ≤ 255)
    (hq : ∀ p ∈ qs, p.1 ≤ 255 ∧ p.2.1 ≤ 255 ∧ p.2.2 ≤ 255) :
    diffSum ps qs ≤ 765 * ps.length := by
  induction ps generalizing qs with
  | nil => simp [diffSum]
  | cons p ps ih =>
    cases qs with
    | nil => simp [diffSum]
    | cons q qs =>
      have h1 := pxDiff_le (hp p (by simp)) (hq q (by simp))
      have h2 := @ih qs (fun x hx => hp x (by simp [hx])) (fun x hx => hq x (by simp [hx]))
      unfold diffSum at h2 ⊢
      rw [List.zipWith_cons_cons, List.sum_cons, List.length_cons]
      omega

theorem cvd_bounds (i1 i2 : PImage) (h1 : i1.wf) (h2 : i2.wf) :
    0 ≤ calculate_visual_difference (some i1) (some i2) ∧
      calculate_visual_difference (some i1) (some i2) ≤ 1 := by
  simp only [calculate_visual_difference]
  by_cases hsz : i1.width = i2.width ∧ i1.height = i2.height
  · rw [if_pos hsz]
    refine ⟨by positivity, ?_⟩
    have hS : diffSum i1.pixels i2.pixels ≤ 765 * i1.pixels.length := diffSum_le h1.2 h2.2
    have hlen : i1.pixels.length = i1.width * i1.height := h1.1
    have hda : i1.width * i1.height * 255 * 3 = 765 * (i1.width * i1.height) := by ring
    have hSD : diffSum i1.pixels i2.pixels ≤ i1.width * i1.height * 255 * 3 := by
      rw [hlen] at hS; omega
    rcases Nat.eq_zero_or_pos (i1.width * i1.height * 255 * 3) with hD | hD
    · have hS0 : diffSum i1.pixels i2.pixels = 0 := by omega
      rw [hD, hS0]
      norm_num
    · rw [div_le_one (by exact_mod_cast hD)]
      exact_mod_cast hSD
  · rw [if_neg hsz]
    norm_num

theorem updateGroup_of_not_mem {A : List (String × String)} {k p : String}
    (h : k ∉ A.map Prod.fst) : updateGroup A k p = A ++ [(k, p)] := by
  induction A with
  | nil => rfl
  | cons e A ih =>
    obtain ⟨k', p'⟩ := e
    have h1 : k' ≠ k := fun he => h (by rw [← he]; exact List.mem_cons_self _ _)
    have h2 : k ∉ A.map Prod.fst := fun hm => h (List.mem_cons_of_mem _ hm)
    rw [updateGroup, if_neg h1, ih h2, List.cons_append]

theorem updateGroup_map_fst (A : List (String × String)) (k p : String) :
    (updateGroup A k p).map Prod.fst =
      if k ∈ A.map Prod.fst then A.map Prod.fst else A.map Prod.fst ++ [k] := by
  induction A with
  | nil => simp [updateGroup]
  | cons e A ih =>
    obtain ⟨k', p'⟩ := e
    by_cases hk : k' = k
    · subst hk
      rw [updateGroup, if_pos rfl]
      by_cases hlen : (pyBasename p').length < (pyBasename p).length
      · rw [if_pos hlen,
          if_pos (show k' ∈ ((k', p') :: A).map Prod.fst by simp)]
        simp
      · rw [if_neg hlen,
          if_pos (show k' ∈ ((k', p') :: A).map Prod.fst by simp)]
    · have hkk' : ¬ (k = k') := fun h => hk h.symm
      rw [updateGroup, if_neg hk, List.map_cons, ih]
      by_cases hm : k ∈ A.map Prod.fst
      · rw [if_pos hm, if_pos (show k ∈ ((k', p') :: A).map Prod.fst by simp [hm])]
        simp
      · rw [if_neg hm,
          if_neg (show k ∉ ((k', p') :: A).map Prod.fst by simp [not_or, hm, hkk'])]
        simp

theorem updateGroup_nodup {A : List (String × String)} {k p : String}
    (h : (A.map Prod.fst).Nodup) : ((updateGroup A k p).map Prod.fst).Nodup := by
  rw [updateGroup_map_fst]
  by_cases hm : k ∈ A.map Prod.fst
  · rw [if_pos hm]; exact h
  · rw [if_neg hm]
    rw [List.nodup_append]
    exact ⟨h, List.nodup_singleton k,
      fun a ha ha' => hm (by rwa [List.mem_singleton.mp ha'] at ha)⟩

theorem updateGroup_key_inv {A : List (String × String)} {k p : String}
    (hA : ∀ e ∈ A, groupKey e.2 = e.1) (hp : groupKey p = k) :
    ∀ e ∈ updateGroup A k p, groupKey e.2 = e.1 := by
  induction A with
  | nil =>
    intro e he
    rcases List.mem_singleton.mp he with rfl
    exact hp
  | cons a A ih =>
    obtain ⟨k', p'⟩ := a
    intro e he
    rw [updateGroup] at he
    by_cases hk : k' = k
    · rw [if_pos hk] at he
      rcases List.mem_cons.mp he with rfl | he
      · by_cases hlen : (pyBasename p').length < (pyBasename p).length
        · rw [if_pos hlen]
          rw [hk]
          exact hp
        · rw [if_neg hlen]
          exact hA _ (List.mem_cons_self _ _)
      · exact hA _ (List.mem_cons_of_mem _ he)
    · rw [if_neg hk] at he
      rcases List.mem_cons.mp he with rfl | he
      · exact hA _ (List.mem_cons_self _ _)
      · exact ih (fun e' he' => hA e' (List.mem_cons_of_mem _ he')) e he

theorem updateGroup_snd_mem {A : List (String × String)} {k p : String} :
    ∀ e ∈ updateGroup A k p, e.2 = p ∨ e ∈ A := by
  induction A with
  | nil =>
    intro e he
    rcases List.mem_singleton.mp he with rfl
    exact Or.inl rfl
  | cons a A ih =>
    obtain ⟨k', p'⟩ := a
    intro e he
    rw [updateGroup] at he
    by_cases hk : k' = k
    · rw [if_pos hk] at he
      rcases List.mem_cons.mp he with rfl | he
      · by_cases hlen : (pyBasename p').length < (pyBasename p).length
        · rw [if_pos hlen]
          exact Or.inl rfl
        · rw [if_neg hlen]
          exact Or.inr (List.mem_cons_self _ _)
      · exact Or.inr (List.mem_cons_of_mem _ he)
    · rw [if_neg hk] at he
      rcases List.mem_cons.mp he with rfl | he
      · exact Or.inr (List.mem_cons_self _ _)
      · rcases ih e he with h | h
        · exact Or.inl h
        · exact Or.inr (List.mem_cons_of_mem _ h)

theorem updateGroup_preserve {A : List (String × String)} (k p : String) :
    ∀ e ∈ A, ∃ e' ∈ updateGroup A k p, e'.1 = e.1 ∧
      (pyBasename e.2).length ≤ (pyBasename e'.2).length := by
  induction A with
  | nil => intro e he; cases he
  | cons a A ih =>
    obtain ⟨k', p'⟩ := a
    intro e he
    rw [updateGroup]
    by_cases hk : k' = k
    · rw [if_pos hk]
      rcases List.mem_cons.mp he with rfl | he
      · by_cases hlen : (pyBasename p').length < (pyBasename p).length
        · rw [if_pos hlen]
          exact ⟨(k', p), List.mem_cons_self _ _, rfl, le_of_lt hlen⟩
        · rw [if_neg hlen]
          exact ⟨(k', p'), List.mem_cons_self _ _, rfl, le_refl _⟩
      · exact ⟨e, List.mem_cons_of_mem _ he, rfl, le_refl _⟩
    · rw [if_neg hk]
      rcases List.mem_cons.mp he with rfl | he
      · exact ⟨(k', p'), List.mem_cons_self _ _, rfl, le_refl _⟩
      · rcases ih e he with ⟨e', he', h1, h2⟩
        exact ⟨e', List.mem_cons_of_mem _ he', h1, h2⟩

theorem updateGroup_covers (A : List (String × String)) (k p : String) :
    ∃ e ∈ updateGroup A k p, e.1 = k ∧
      (pyBasename p).length ≤ (pyBasename e.2).length := by
  induction A with
  | nil => exact ⟨(k, p), List.mem_singleton.mpr rfl, rfl, le_refl _⟩
  | cons a A ih =>
    obtain ⟨k', p'⟩ := a
    rw [updateGroup]
    by_cases hk : k' = k
    · rw [if_pos hk]
      by_cases hlen : (pyBasename p').length < (pyBasename p).length
      · rw [if_pos hlen]
        exact ⟨(k', p), List.mem_cons_self _ _, hk, le_refl _⟩
      · rw [if_neg hlen]
        exact ⟨(k', p'), List.mem_cons_self _ _, hk, le_of_not_lt hlen⟩
    · rw [if_neg hk]
      rcases ih with ⟨e, he, h1, h2⟩
      exact ⟨e, List.mem_cons_of_mem _ he, h1, h2⟩

theorem foldGroups_go_key_inv : ∀ (S : List String) (A : List (String × String)),
    (∀ e ∈ A, groupKey e.2 = e.1) →
    ∀ e ∈ S.foldl (fun groups path => updateGroup groups (groupKey path) path) A,
      groupKey e.2 = e.1
  | [], _, hA => hA
  | s :: S, A, hA => by
    rw [List.foldl_cons]
    exact foldGroups_go_key_inv S _ (updateGroup_key_inv hA rfl)

theorem foldGroups_go_nodup : ∀ (S : List String) (A : List (String × String)),
    (A.map Prod.fst).Nodup →
    ((S.foldl (fun groups path => updateGroup groups (groupKey path) path) A).map
      Prod.fst).Nodup
  | [], _, hA => hA
  | s :: S, A, hA => by
    rw [List.foldl_cons]
    exact foldGroups_go_nodup S _ (updateGroup_nodup hA)

theorem foldGroups_go_snd_mem :
    ∀ (S : List String) (A : List (String × String)) (T : List String),
    (∀ e ∈ A, e.2 ∈ T) → (∀ s ∈ S, s ∈ T) →
    ∀ e ∈ S.foldl (fun groups path => updateGroup groups (groupKey path) path) A, e.2 ∈ T
  | [], _, _, hA, _ => hA
  | s :: S, A, T, hA, hS => by
    rw [List.foldl_cons]
    refine foldGroups_go_snd_mem S _ T ?_ (fun x hx => hS x (List.mem_cons_of_mem _ hx))
    intro e he
    rcases updateGroup_snd_mem e he with h | h
    · rw [h]; exact hS s (List.mem_cons_self _ _)
    · exact hA e h

theorem foldGroups_go_preserve : ∀ (S : List String) (A : List (String × String)),
    ∀ e ∈ A,
      ∃ e' ∈ S.foldl (fun groups path => updateGroup groups (groupKey path) path) A,
        e'.1 = e.1 ∧ (pyBasename e.2).length ≤ (pyBasename e'.2).length
  | [], _, e, he => ⟨e, he, rfl, le_refl _⟩
  | s :: S, A, e, he => by
    rw [List.foldl_cons]
    rcases updateGroup_preserve (groupKey s) s e he with ⟨e1, he1, h1, h2⟩
    rcases foldGroups_go_preserve S _ e1 he1 with ⟨e', he', h1', h2'⟩
    exact ⟨e', he', h1'.trans h1, h2.trans h2'⟩

theorem foldGroups_go_covers : ∀ (S : List String) (A : List (String × String)),
    ∀ s ∈ S,
      ∃ e ∈ S.foldl (fun groups path => updateGroup groups (groupKey path) path) A,
        e.1 = groupKey s ∧ (pyBasename s).length ≤ (pyBasename e.2).length
  | [], _, s, hs => absurd hs (List.not_mem_nil s)
  | s0 :: S, A, s, hs => by
    rw [List.foldl_cons]
    rcases List.mem_cons.mp hs with rfl | hs
    · rcases updateGroup_covers A (groupKey s) s with ⟨e1, he1, h1, h2⟩
      rcases foldGroups_go_preserve S _ e1 he1 with ⟨e', he', h1', h2'⟩
      exact ⟨e', he', h1'.trans h1, h2.trans h2'⟩
    · exact foldGroups_go_covers S _ s hs

theorem foldGroups_go_values : ∀ (G A : List (String × String)),
    (∀ e ∈ G, groupKey e.2 = e.1) →
    ((A.map Prod.fst) ++ (G.map Prod.fst)).Nodup →
    (G.map Prod.snd).foldl (fun groups path => updateGroup groups (groupKey path) path) A
      = A ++ G
  | [], A, _, _ => by simp
  | e :: G, A, hG, hnd => by
    rw [List.map_cons, List.foldl_cons]
    have hkey : groupKey e.2 = e.1 := hG e (List.mem_cons_self _ _)
    have hnotin : e.1 ∉ A.map Prod.fst := by
      intro hm
      have hdisj := (List.nodup_append.mp hnd).2.2
      exact hdisj hm (by simp)
    rw [hkey, updateGroup_of_not_mem hnotin]
    have hnd' : ((A ++ [e]).map Prod.fst ++ G.map Prod.fst).Nodup := by
      rw [List.map_append]
      rw [List.append_assoc]
      simpa using hnd
    rw [foldGroups_go_values G (A ++ [e]) (fun x hx => hG x (List.mem_cons_of_mem _ hx)) hnd']
    simp

theorem padded_dts_length (t_before dur : Int) (imgs : List α) (vd : α → α → ℚ) :
    (if (generate_duration_timestamps t_before dur imgs vd).length < imgs.length
      then generate_duration_timestamps t_before dur imgs vd ++ [t_before + dur]
      else generate_duration_timestamps t_before dur imgs vd).length = imgs.length := by
  have hlen := gdt_length t_before dur imgs vd
  by_cases h1 : imgs.length = 1
  · rw [if_pos h1] at hlen
    split
    next hc => omega
    next hc => omega
  · rw [if_neg h1] at hlen
    split
    next hc =>
      rw [List.length_append, List.length_singleton]
      omega
    next hc => omega

theorem padded_dts_bounds {vd : α → α → ℚ} (hvd : ∀ a b, 0 ≤ vd a b)
    (t_before : Int) {dur : Int} (hdur : 0 ≤ dur) (imgs : List α) :
    ∀ x ∈ (if (generate_duration_timestamps t_before dur imgs vd).length < imgs.length
      then generate_duration_timestamps t_before dur imgs vd ++ [t_before + dur]
      else generate_duration_timestamps t_before dur imgs vd),
      t_before ≤ x ∧ x ≤ t_before + dur := by
  intro x hx
  split at hx
  · rcases List.mem_append.mp hx with h' | h'
    · exact gdt_mem_bounds hvd t_before hdur imgs x h'
    · rcases List.mem_singleton.mp h' with rfl
      omega
  · exact gdt_mem_bounds hvd t_before hdur imgs x hx

theorem padded_dts_chain {vd : α → α → ℚ} (hvd : ∀ a b, 0 ≤ vd a b)
    (t_before : Int) {dur : Int} (hdur : 0 ≤ dur) (imgs : List α) :
    List.Chain' (· ≤ ·)
      (if (generate_duration_timestamps t_before dur imgs vd).length < imgs.length
        then generate_duration_timestamps t_before dur imgs vd ++ [t_before + dur]
        else generate_duration_timestamps t_before dur imgs vd) := by
  split
  · rw [List.chain'_append]
    refine ⟨gdt_chain hvd t_before hdur imgs, List.chain'_singleton _, ?_⟩
    intro x hx y hy
    have hxl : x ∈ generate_duration_timestamps t_before dur imgs vd := by
      rcases List.mem_getLast?_eq_getLast hx with ⟨hne, rfl⟩
      exact List.getLast_mem hne
    have hb := (gdt_mem_bounds hvd t_before hdur imgs x hxl).2
    have hy' : t_before + dur = y := by simpa using hy
    omega
  · exact gdt_chain hvd t_before hdur imgs

/-- C1: the claim says the single-window allocator returns exactly N timestamps for
every N ≥ 1, and for N = 1 a single timestamp `start + jitter()`.  The code has no
N = 1 branch: evaluating `generate_timestamps` on one Shot (start = 28800,
duration_before = 3600, both jitters 0) returns the two timestamps [28800, 32400],
one more than the single input Shot. -/
theorem claim_C1_eval :
    generate_timestamps 28800 3600 3600 [()] (fun _ _ => 0) 0 0 = [28800, 32400] ∧
    (generate_timestamps 28800 3600 3600 [()] (fun _ _ => 0) 0 0).length ≠
      ([()] : List Unit).length := by
  constructor
  · decide
  · decide

/-- C2: the claim says that with N > 2 Shots and zero total visual difference the
intervals fall back to equal widths of duration/(N-2).  In the code
`total_diff = sum(diffs) or 1` makes the `total_diff == 0` fallback branch unreachable,
so all intervals are 0: on three identical Shots with duration = 3600 the computed
interval list is [0] (not [3600]) and the third timestamp collapses onto the second
anchor, giving [36000, 39600, 39600]. -/
theorem claim_C2_eval :
    gt_intervals 3600 [(), (), ()] (fun _ _ => (0 : ℚ)) = [0] ∧
    generate_timestamps 36000 3600 3600 [(), (), ()] (fun _ _ => 0) 0 0 =
      [36000, 39600, 39600] := by
  constructor
  · norm_num [gt_intervals_eq, consecDiffs]
  · set_option maxRecDepth 8000 in
    norm_num [generate_timestamps, gt_intervals, consecDiffs, walkTimestamps, truncInt,
      pySorted, List.insertionSort, List.orderedInsert]

/-- C3 as stated is false on the code: no gap is floored to 1 second.  With three
Shots whose pairwise visual differences are all 0, the walk from the second anchor
adds a gap of 0, so the output [28800, 36000, 36000] repeats a timestamp and is not
strictly increasing. -/
theorem counterexample_C3 :
    generate_timestamps 28800 7200 3600 [(), (), ()] (fun _ _ => 0) 0 0 =
      [28800, 36000, 36000] ∧
    ¬ List.Chain' (· < ·)
      (generate_timestamps 28800 7200 3600 [(), (), ()] (fun _ _ => 0) 0 0) := by
  have h : generate_timestamps 28800 7200 3600 [(), (), ()] (fun _ _ => 0) 0 0 =
      [28800, 36000, 36000] := by
    set_option maxRecDepth 8000 in
    norm_num [generate_timestamps, gt_intervals, consecDiffs, walkTimestamps, truncInt,
      pySorted, List.insertionSort, List.orderedInsert]
  refine ⟨h, ?_⟩
  rw [h]
  intro hch
  rw [List.chain'_iff_pairwise] at hch
  norm_num [List.pairwise_cons] at hch

/-- C3 (amended): the allocator applies no 1-second floor; each allocated gap is
`(diff / total_diff) * duration`, which is only guaranteed nonnegative when the
visual-difference metric is nonnegative and the duration is nonnegative.  Under those
hypotheses the walk from the second anchor is non-decreasing (timestamps may repeat),
and the final sorted output of the allocator is non-decreasing as well — strict
monotonicity does not hold in general. -/
theorem claim_C3 {α : Type} (start_time duration_before duration : Int)
    (image_files : List α) (vd : α → α → ℚ) (j1 j2 : Int)
    (hvd : ∀ a b, 0 ≤ vd a b) (hdur : 0 ≤ duration) :
    List.Chain' (· ≤ ·)
      (walkTimestamps ((start_time + j1 + duration_before + j2 : Int) : ℚ)
        (gt_intervals duration image_files vd)) ∧
    List.Chain' (· ≤ ·)
      (generate_timestamps start_time duration_before duration image_files vd j1 j2) := by
  constructor
  · exact walkTimestamps_chain (gt_intervals_nonneg hvd hdur image_files) _
  · unfold generate_timestamps
    split
    · exact pySorted_chain _
    · exact pySorted_chain _

/-- Witness for C3 (amended) at a concrete input. -/
theorem claim_C3_witness :
    (∀ a b : Unit, 0 ≤ (fun _ _ => (1 : ℚ) / 2) a b) ∧ (0 : Int) ≤ 3600 ∧
    List.Chain' (· ≤ ·)
      (walkTimestamps ((28800 + 0 + 3600 + 0 : Int) : ℚ)
        (gt_intervals 3600 [(), (), ()] (fun _ _ => (1 : ℚ) / 2))) ∧
    List.Chain' (· ≤ ·)
      (generate_timestamps 28800 3600 3600 [(), (), ()] (fun _ _ => (1 : ℚ) / 2) 0 0) :=
  ⟨fun _ _ => by norm_num, by norm_num,
    (claim_C3 28800 3600 3600 [(), (), ()] (fun _ _ => (1 : ℚ) / 2) 0 0
      (fun _ _ => by norm_num) (by norm_num)).1,
    (claim_C3 28800 3600 3600 [(), (), ()] (fun _ _ => (1 : ℚ) / 2) 0 0
      (fun _ _ => by norm_num) (by norm_num)).2⟩

/-- C4 as stated is false on the code: nothing orders the before-work anchor after the
start anchor.  With DURATION_BEFORE_WORKS = 600 seconds and second jitter -1800 the
emitted sequence is [28800, 27600], which decreases. -/
theorem counterexample_C4 :
    incident_raw_timestamps 28800 600 3600 ([] : List Unit) (fun _ _ => 0) 0 (-1800) =
      [28800, 27600] ∧
    ¬ List.Chain' (· ≤ ·)
      (incident_raw_timestamps 28800 600 3600 ([] : List Unit) (fun _ _ => 0) 0 (-1800)) := by
  have h : incident_raw_timestamps 28800 600 3600 ([] : List Unit) (fun _ _ => 0) 0 (-1800) =
      [28800, 27600] := by
    norm_num [incident_raw_timestamps, generate_duration_timestamps, consecDiffs,
      walkTimestamps]
  refine ⟨h, ?_⟩
  rw [h]
  intro hch
  rw [List.chain'_iff_pairwise] at hch
  norm_num [List.pairwise_cons] at hch

/-- C4 (amended): in stage-typed incident mode the allocator always emits exactly one
timestamp per input Shot (2 + K in total), and each emitted timestamp is day-rollover
normalized via `adjust_timestamp` against the incident date; the full emitted sequence
is non-decreasing for every outcome of the ±1800 s jitter provided the configured
before-work gap is at least the jitter bound (1800 s), the metric is nonnegative and
the duration is nonnegative. -/
theorem claim_C4 {α : Type} (start_seconds before_seconds duration_seconds : Int)
    (duration_images : List α) (vd : α → α → ℚ) (j1 j2 D : Int)
    (hvd : ∀ a b, 0 ≤ vd a b) (hb : 1800 ≤ before_seconds) (hj2 : -1800 ≤ j2)
    (hdur : 0 ≤ duration_seconds) :
    (incident_raw_timestamps start_seconds before_seconds duration_seconds
        duration_images vd j1 j2).length = 2 + duration_images.length ∧
    List.Chain' (· ≤ ·)
      (incident_raw_timestamps start_seconds before_seconds duration_seconds
        duration_images vd j1 j2) ∧
    incident_stamped start_seconds before_seconds duration_seconds
        duration_images vd j1 j2 D =
      (incident_raw_timestamps start_seconds before_seconds duration_seconds
        duration_images vd j1 j2).map (fun t => adjust_timestamp t D) := by
  have hlen := padded_dts_length (start_seconds + j1 + before_seconds + j2)
    duration_seconds duration_images vd
  have hbounds := padded_dts_bounds hvd (start_seconds + j1 + before_seconds + j2)
    hdur duration_images
  have hchain := padded_dts_chain hvd (start_seconds + j1 + before_seconds + j2)
    hdur duration_images
  refine ⟨?_, ?_, rfl⟩
  · simp only [incident_raw_timestamps, List.length_cons]
    rw [hlen]
    omega
  · simp only [incident_raw_timestamps]
    rw [List.chain'_cons]
    constructor
    · omega
    · rw [List.chain'_cons']
      refine ⟨fun y hy => ?_, hchain⟩
      exact (hbounds y (List.mem_of_mem_head? hy)).1

/-- Witness for C4 (amended) at a concrete input. -/
theorem claim_C4_witness :
    ((∀ a b : Unit, 0 ≤ (fun _ _ => (0 : ℚ)) a b) ∧ (1800 : Int) ≤ 3600 ∧
      (-1800 : Int) ≤ -1800 ∧ (0 : Int) ≤ 7200) ∧
    (incident_raw_timestamps 28800 3600 7200 [(), ()] (fun _ _ => (0 : ℚ)) 0 (-1800)).length
      = 2 + ([(), ()] : List Unit).length ∧
    List.Chain' (· ≤ ·)
      (incident_raw_timestamps 28800 3600 7200 [(), ()] (fun _ _ => (0 : ℚ)) 0 (-1800)) ∧
    incident_stamped 28800 3600 7200 [(), ()] (fun _ _ => (0 : ℚ)) 0 (-1800) 5 =
      (incident_raw_timestamps 28800 3600 7200 [(), ()] (fun _ _ => (0 : ℚ)) 0
        (-1800)).map (fun t => adjust_timestamp t 5) :=
  ⟨⟨fun _ _ => le_refl 0, by norm_num, by norm_num, by norm_num⟩,
    claim_C4 28800 3600 7200 [(), ()] (fun _ _ => (0 : ℚ)) 0 (-1800) 5
      (fun _ _ => le_refl 0) (by norm_num) (by norm_num) (by norm_num)⟩

/-- C5: the day-rollover normalizer `adjust_timestamp` maps any nonnegative
seconds-of-day into [0, 86400) by repeatedly rolling a day forward; concretely
90000 ↦ (D+1, 3600), 86400 ↦ (D+1, 0), 500 ↦ (D, 500); and re-normalizing its own
output changes nothing. -/
theorem claim_C5 (t D : Int) (ht : 0 ≤ t) :
    (0 ≤ (adjust_timestamp t D).2 ∧ (adjust_timestamp t D).2 < 86400) ∧
    adjust_timestamp 90000 D = (D + 1, 3600) ∧
    adjust_timestamp 86400 D = (D + 1, 0) ∧
    adjust_timestamp 500 D = (D, 500) ∧
    adjust_timestamp (adjust_timestamp t D).2 (adjust_timestamp t D).1 =
      adjust_timestamp t D := by
  have hb := adjust_timestamp_bounds t D ht
  refine ⟨hb, ?_, ?_, adjust_timestamp_of_lt D (by norm_num), ?_⟩
  · rw [adjust_timestamp, dif_pos (show (86400 : Int) ≤ 90000 by norm_num),
      show (90000 : Int) - 86400 = 3600 by norm_num,
      adjust_timestamp_of_lt (D + 1) (by norm_num)]
  · rw [adjust_timestamp, dif_pos (show (86400 : Int) ≤ 86400 by norm_num),
      show (86400 : Int) - 86400 = 0 by norm_num,
      adjust_timestamp_of_lt (D + 1) (by norm_num)]
  · exact adjust_timestamp_of_lt (adjust_timestamp t D).1 hb.2

/-- Witness for C5 at t = 90000, D = 0. -/
theorem claim_C5_witness :
    (0 : Int) ≤ 90000 ∧
    ((0 ≤ (adjust_timestamp 90000 0).2 ∧ (adjust_timestamp 90000 0).2 < 86400) ∧
    adjust_timestamp 90000 0 = (0 + 1, 3600) ∧
    adjust_timestamp 86400 0 = (0 + 1, 0) ∧
    adjust_timestamp 500 0 = (0, 500) ∧
    adjust_timestamp (adjust_timestamp 90000 0).2 (adjust_timestamp 90000 0).1 =
      adjust_timestamp 90000 0) :=
  ⟨by norm_num, claim_C5 90000 0 (by norm_num)⟩

/-- C6 as stated is false on the code: for N = 3 Shots the allocator computes only the
single difference between Shot 2 and Shot 3 (N-2 = 1 comparison over shots[1..N-1]),
so with VisualDifference(1,2) = 0.8 and VisualDifference(2,3) = 0.2 and duration = 3600
it produces the single post-anchor gap 3600 — not two gaps of 2880 and 720 — and with
zero before-gap and zero jitter the output [28800, 28800, 32400] is not strictly
increasing. -/
theorem counterexample_C6 :
    generate_timestamps 28800 0 3600 [0, 1, 2]
      (fun a b => if a = 0 ∧ b = 1 then (4 : ℚ) / 5
        else if a = 1 ∧ b = 2 then 1 / 5 else 0) 0 0 = [28800, 28800, 32400] ∧
    ¬ List.Chain' (· < ·)
      (generate_timestamps 28800 0 3600 [0, 1, 2]
        (fun a b => if a = 0 ∧ b = 1 then (4 : ℚ) / 5
          else if a = 1 ∧ b = 2 then 1 / 5 else 0) 0 0) := by
  have h : generate_timestamps 28800 0 3600 [0, 1, 2]
      (fun a b => if a = 0 ∧ b = 1 then (4 : ℚ) / 5
        else if a = 1 ∧ b = 2 then 1 / 5 else 0) 0 0 = [28800, 28800, 32400] := by
    set_option maxRecDepth 8000 in
    norm_num [generate_timestamps, gt_intervals, consecDiffs, walkTimestamps, truncInt,
      pySorted, List.insertionSort, List.orderedInsert]
  refine ⟨h, ?_⟩
  rw [h]
  intro hch
  rw [List.chain'_iff_pairwise] at hch
  norm_num [List.pairwise_cons] at hch

/-- C6 (amended): to obtain two visual-difference-weighted gaps the input needs
N = 4 Shots; when the two differences the allocator actually computes (between
consecutive Shots among shots 2..4) are 0.8 and 0.2 and duration = 3600, the two
post-anchor gaps are exactly 2880 s and 720 s (ratio 4:1) and the timestamps are
strictly increasing provided the second anchor falls strictly after the first
(duration_before + jitter₂ > 0). -/
theorem claim_C6 (start_time duration_before j1 j2 : Int)
    (h : 0 < duration_before + j2) :
    gt_intervals 3600 [0, 1, 2, 3]
      (fun a b => if a = 1 ∧ b = 2 then (4 : ℚ) / 5
        else if a = 2 ∧ b = 3 then 1 / 5 else 0) = [2880, 720] ∧
    generate_timestamps start_time duration_before 3600 [0, 1, 2, 3]
      (fun a b => if a = 1 ∧ b = 2 then (4 : ℚ) / 5
        else if a = 2 ∧ b = 3 then 1 / 5 else 0) j1 j2 =
      [start_time + j1, start_time + j1 + duration_before + j2,
       start_time + j1 + duration_before + j2 + 2880,
       start_time + j1 + duration_before + j2 + 3600] ∧
    List.Chain' (· < ·)
      (generate_timestamps start_time duration_before 3600 [0, 1, 2, 3]
        (fun a b => if a = 1 ∧ b = 2 then (4 : ℚ) / 5
          else if a = 2 ∧ b = 3 then 1 / 5 else 0) j1 j2) := by
  have hint : gt_intervals 3600 [0, 1, 2, 3]
      (fun a b => if a = 1 ∧ b = 2 then (4 : ℚ) / 5
        else if a = 2 ∧ b = 3 then 1 / 5 else 0) = [2880, 720] := by
    norm_num [gt_intervals_eq, consecDiffs]
  have heval : generate_timestamps start_time duration_before 3600 [0, 1, 2, 3]
      (fun a b => if a = 1 ∧ b = 2 then (4 : ℚ) / 5
        else if a = 2 ∧ b = 3 then 1 / 5 else 0) j1 j2 =
      [start_time + j1, start_time + j1 + duration_before + j2,
       start_time + j1 + duration_before + j2 + 2880,
       start_time + j1 + duration_before + j2 + 3600] := by
    unfold generate_timestamps
    rw [if_neg (by norm_num), hint]
    have h1 : ((start_time + j1 + duration_before + j2 : Int) : ℚ) + 2880 =
        ((start_time + j1 + duration_before + j2 + 2880 : Int) : ℚ) := by push_cast; ring
    have h2 : ((start_time + j1 + duration_before + j2 : Int) : ℚ) + 2880 + 720 =
        ((start_time + j1 + duration_before + j2 + 3600 : Int) : ℚ) := by push_cast; ring
    rw [walkTimestamps, walkTimestamps, walkTimestamps, h2, h1,
      truncInt_intCast, truncInt_intCast]
    refine pySorted_eq_of_sorted ?_
    simp only [List.cons_append, List.nil_append]
    refine List.sorted_cons.mpr ⟨?_, List.sorted_cons.mpr ⟨?_,
      List.sorted_cons.mpr ⟨?_, List.sorted_singleton _⟩⟩⟩
    · intro b hb
      rcases List.mem_cons.mp hb with rfl | hb
      · omega
      rcases List.mem_cons.mp hb with rfl | hb
      · omega
      rcases List.mem_singleton.mp hb with rfl
      omega
    · intro b hb
      rcases List.mem_cons.mp hb with rfl | hb
      · omega
      rcases List.mem_singleton.mp hb with rfl
      omega
    · intro b hb
      rcases List.mem_singleton.mp hb with rfl
      omega
  refine ⟨hint, heval, ?_⟩
  rw [heval]
  simp only [List.chain'_cons, List.chain'_singleton, and_true]
  omega

/-- Witness for C6 (amended) at start = 28800, duration_before = 3600, zero jitter. -/
theorem claim_C6_witness :
    (0 : Int) < 3600 + 0 ∧
    (gt_intervals 3600 [0, 1, 2, 3]
      (fun a b => if a = 1 ∧ b = 2 then (4 : ℚ) / 5
        else if a = 2 ∧ b = 3 then 1 / 5 else 0) = [2880, 720] ∧
    generate_timestamps 28800 3600 3600 [0, 1, 2, 3]
      (fun a b => if a = 1 ∧ b = 2 then (4 : ℚ) / 5
        else if a = 2 ∧ b = 3 then 1 / 5 else 0) 0 0 =
      [28800 + 0, 28800 + 0 + 3600 + 0, 28800 + 0 + 3600 + 0 + 2880,
       28800 + 0 + 3600 + 0 + 3600] ∧
    List.Chain' (· < ·)
      (generate_timestamps 28800 3600 3600 [0, 1, 2, 3]
        (fun a b => if a = 1 ∧ b = 2 then (4 : ℚ) / 5
          else if a = 2 ∧ b = 3 then 1 / 5 else 0) 0 0)) :=
  ⟨by norm_num, claim_C6 28800 3600 0 0 (by norm_num)⟩

/-- C7: the Grouper is idempotent — grouping the output of `group_by_prefix` again
returns it unchanged (hence equal as sets of paths), for every candidate list. -/
theorem claim_C7 : ∀ S : List String,
    group_by_prefix ( group_by_prefix S) = group_by_prefix S := by
  intro S
  have hinv : ∀ e ∈ foldGroups S, groupKey e.2 = e.1 :=
    foldGroups_go_key_inv S [] (fun e he => absurd he (List.not_mem_nil e))
  have hnd : ((foldGroups S).map Prod.fst).Nodup :=
    foldGroups_go_nodup S [] List.nodup_nil
  have hval : foldGroups ((foldGroups S).map Prod.snd) = [] ++ foldGroups S :=
    foldGroups_go_values (foldGroups S) [] hinv (by simpa using hnd)
  unfold group_by_prefix
  rw [hval, List.nil_append]

/-- C8: `group_by_prefix` keeps exactly one path per prefix key (the keys of the
output are pairwise distinct), every kept path comes from the input, every input
path is represented by a kept path with the same key and a basename at least as
long (the representative is only replaced by strictly longer filenames), and
grouping ["12_a.jpg", "12_longer.jpg", "7.jpg"] yields ["12_longer.jpg", "7.jpg"]. -/
theorem claim_C8 (S : List String) :
    (( group_by_prefix S).map groupKey).Nodup ∧
    (∀ q ∈ group_by_prefix S, q ∈ S) ∧
    (∀ p ∈ S, ∃ q ∈ group_by_prefix S, groupKey q = groupKey p ∧
      (pyBasename p).length ≤ (pyBasename q).length) ∧
    group_by_prefix ["12_a.jpg", "12_longer.jpg", "7.jpg"] =
      ["12_longer.jpg", "7.jpg"] := by
  have hinv : ∀ e ∈ foldGroups S, groupKey e.2 = e.1 :=
    foldGroups_go_key_inv S [] (fun e he => absurd he (List.not_mem_nil e))
  refine ⟨?_, ?_, ?_, by decide⟩
  · have hnd : ((foldGroups S).map Prod.fst).Nodup :=
      foldGroups_go_nodup S [] List.nodup_nil
    unfold group_by_prefix
    rw [List.map_map]
    have hmap : List.map (groupKey ∘ Prod.snd) (foldGroups S) =
        List.map Prod.fst (foldGroups S) :=
      List.map_congr_left (fun e he => hinv e he)
    rw [hmap]
    exact hnd
  · intro q hq
    rcases List.mem_map.mp hq with ⟨e, he, rfl⟩
    exact foldGroups_go_snd_mem S [] S (fun e he => absurd he (List.not_mem_nil e))
      (fun s hs => hs) e he
  · intro p hp
    rcases foldGroups_go_covers S [] p hp with ⟨e, he, h1, h2⟩
    exact ⟨e.2, List.mem_map.mpr ⟨e, he, rfl⟩, by rw [hinv e he, h1], h2⟩

/-- C9: the visual-difference metric, on well-formed decoded images, always returns a
value in [0, 1]; a failed decode of either input, or a width/height mismatch, makes it
return exactly 0 instead of propagating the error. -/
theorem claim_C9 (i1 i2 : PImage) (h1 : i1.wf) (h2 : i2.wf) :
    (0 ≤ calculate_visual_difference (some i1) (some i2) ∧
      calculate_visual_difference (some i1) (some i2) ≤ 1) ∧
    (∀ b, calculate_visual_difference none b = 0) ∧
    (∀ a, calculate_visual_difference a none = 0) ∧
    (¬ (i1.width = i2.width ∧ i1.height = i2.height) →
      calculate_visual_difference (some i1) (some i2) = 0) := by
  refine ⟨cvd_bounds i1 i2 h1 h2, fun b => rfl, fun a => ?_, fun hsz => ?_⟩
  · cases a <;> rfl
  · simp only [calculate_visual_difference]
    rw [if_neg hsz]

/-- Witness for C9 on two concrete 1×1 images. -/
theorem claim_C9_witness :
    (PImage.wf ⟨1, 1, [(0, 0, 0)]⟩ ∧ PImage.wf ⟨1, 1, [(255, 0, 0)]⟩) ∧
    ((0 ≤ calculate_visual_difference (some ⟨1, 1, [(0, 0, 0)]⟩)
        (some ⟨1, 1, [(255, 0, 0)]⟩) ∧
      calculate_visual_difference (some ⟨1, 1, [(0, 0, 0)]⟩)
        (some ⟨1, 1, [(255, 0, 0)]⟩) ≤ 1) ∧
    (∀ b, calculate_visual_difference none b = 0) ∧
    (∀ a, calculate_visual_difference a none = 0) ∧
    (¬ ((⟨1, 1, [(0, 0, 0)]⟩ : PImage).width = (⟨1, 1, [(255, 0, 0)]⟩ : PImage).width ∧
        (⟨1, 1, [(0, 0, 0)]⟩ : PImage).height = (⟨1, 1, [(255, 0, 0)]⟩ : PImage).height) →
      calculate_visual_difference (some ⟨1, 1, [(0, 0, 0)]⟩)
        (some ⟨1, 1, [(255, 0, 0)]⟩) = 0)) :=
  ⟨⟨by decide, by decide⟩, claim_C9 ⟨1, 1, [(0, 0, 0)]⟩ ⟨1, 1, [(255, 0, 0)]⟩
    (by decide) (by decide)⟩

/-- C10 (implicit): for every seconds value t < 86400 — including every negative t —
`adjust_timestamp` returns (base_date, t) unchanged; consequently, when the configured
start time is below the 1800 s jitter bound, the jittered first anchor
start + (-1800) is negative and passes through normalization unchanged, never being
brought into [0, 86400). -/
theorem claim_C10 (t D start : Int) (ht : t < 86400) (h0 : 0 ≤ start)
    (h1 : start < 1800) :
    adjust_timestamp t D = (D, t) ∧
    start + (-1800) < 0 ∧
    adjust_timestamp (start + (-1800)) D = (D, start + (-1800)) :=
  ⟨adjust_timestamp_of_lt D ht, by omega, adjust_timestamp_of_lt D (by omega)⟩

/-- Witness for C10 at t = -100, D = 7, start = 500. -/
theorem claim_C10_witness :
    ((-100 : Int) < 86400 ∧ (0 : Int) ≤ 500 ∧ (500 : Int) < 1800) ∧
    (adjust_timestamp (-100) 7 = (7, -100) ∧
    (500 : Int) + (-1800) < 0 ∧
    adjust_timestamp ((500 : Int) + (-1800)) 7 = (7, (500 : Int) + (-1800))) :=
  ⟨⟨by norm_num, by norm_num, by norm_num⟩,
    claim_C10 (-100) 7 500 (by norm_num) (by norm_num) (by norm_num)⟩

end PhotoReports
